import Mathlib

/-!
Shallow embedding of the hangman game server (models.py, api.py).

Python strings are modelled as `List Char`; Python ints (ndb
IntegerProperty values) as `Int`.  The code runs on Google App Engine
with protorpc/webapp2, i.e. Python 2.7, so `/` on ints is floor
division (`Int.fdiv`).  Datastore entities become structures; key
dereferencing is inlined (a Level carries its word's text directly).
-/

namespace Hangman

/-- models.py `Word`: the word to be guessed and a clue. -/
structure Word where
  name : List Char
  clue : List Char
deriving DecidableEq

/-- One cell of the fully revealed rendering: Python `" {} ".format(c)`. -/
def revealCell (c : Char) : List Char := [' ', c, ' ']

/-- `Word.get_guessed_word`, whole-word-match branch:
`''.join(" {} ".format(c) for c in self.name)`. -/
def fullReveal (name : List Char) : List Char := name.flatMap revealCell

/-- `Word.get_guessed_word`, single-letter case: `indexes = [pos for pos, c in
enumerate(self.name) if c == guess]`, then `guessed_word[(i * 3) + 1] = guess`
for each index. -/
def revealLetter (name : List Char) (gw : List Char) (c : Char) : List Char :=
  ((name.enum.filter (fun p => p.2 == c)).map Prod.fst).foldl
    (fun acc i => acc.set (3 * i + 1) c) gw

/-- The `for guess in guesses` loop of `Word.get_guessed_word`:
an exact whole-word match returns the full reveal at once; a guess longer
than one letter is otherwise skipped (`continue`); a one-letter guess
reveals its positions.  (A zero-length guess matches no position, as in
Python where no enumerated character equals the empty string.) -/
def get_guessed_word_loop (name : List Char) :
    List (List Char) → List Char → List Char
  | [], gw => gw
  | guess :: rest, gw =>
    if guess = name then fullReveal name
    else if 1 < guess.length then get_guessed_word_loop name rest gw
    else
      match guess with
      | [c] => get_guessed_word_loop name rest (revealLetter name gw c)
      | _ => get_guessed_word_loop name rest gw

/-- The initial mask `list(" _ " * len(self.name))`. -/
def initMask (len : Nat) : List Char :=
  (List.replicate len [' ', '_', ' ']).flatten

/-- models.py `Word.get_guessed_word(self, guesses)`. -/
def get_guessed_word (w : Word) (guesses : List (List Char)) : List Char :=
  get_guessed_word_loop w.name guesses (initMask w.name.length)


/-- models.py `Level` (the `word` key is dereferenced to the Word entity;
`game` key is implicit in `GState`). -/
structure Level where
  word : Word
  level_number : Int
  guesses : List (List Char)
  attempts_remaining : Int
  complete : Bool
  won : Bool
deriving DecidableEq

/-- models.py `User`: name and the aggregate fields updated at game over. -/
structure User where
  name : List Char
  total_score : Int
  total_played : Int
  average_score : Int
deriving DecidableEq

/-- models.py `Game` fields relevant to play (`user` and `current_level`
keys are inlined into `GState`; `date` plays no role in the logic). -/
structure Game where
  failed_attempts_allowed : Int
  game_over : Bool
  score : Int
deriving DecidableEq

/-- The entity group one request touches: the game, its current level and
its user. -/
structure GState where
  user : User
  game : Game
  level : Level
deriving DecidableEq

/-- Python substring containment `guess in word.name`. -/
def occursIn (g w : List Char) : Bool :=
  (List.range (w.length + 1)).any (fun i => (w.drop i).take g.length == g)

/-- `Level.update_level`, word-guess branch (`len(guess) == len(word.name)`):
an exact match completes the level as won, otherwise an attempt is used. -/
def word_guess_step (lv : Level) (guess : List Char) : Level :=
  if guess = lv.word.name then { lv with complete := true, won := true }
  else { lv with attempts_remaining := lv.attempts_remaining - 1 }

/-- `Level.update_level`, letter-guess branch: if the mask over the guesses
so far (the new guess included) has no underscore left the level is won;
otherwise a letter not occurring in the word uses an attempt. -/
def letter_guess_step (lv : Level) (guess : List Char) : Level :=
  if ¬ ('_' ∈ get_guessed_word lv.word lv.guesses) then
    { lv with complete := true, won := true }
  else if occursIn guess lv.word.name = false then
    { lv with attempts_remaining := lv.attempts_remaining - 1 }
  else lv

/-- The trailing check of `Level.update_level`: `if self.attempts_remaining
< 1: self.complete = True; self.won = False`. -/
def finish_level (lv : Level) : Level :=
  if lv.attempts_remaining < 1 then { lv with complete := true, won := false }
  else lv

/-- models.py `Level.update_level(self, guess)`: append the guess, branch on
the guess length, then the final attempts check. -/
def update_level (lv : Level) (guess : List Char) : Level :=
  let lv1 : Level := { lv with guesses := lv.guesses ++ [guess] }
  finish_level
    (if guess.length = lv1.word.name.length then word_guess_step lv1 guess
     else letter_guess_step lv1 guess)

/-- models.py `Game.update_game(self, guess)`: delegate to the level; on a
won completion add the level's remaining attempts to the game score; on a
lost completion set `game_over` and fold the game score into the user's
aggregates.  The code runs on Python 2, so in
`int(round(user.total_score / user.total_played))` the division is integer
floor division: the whole expression is `Int.fdiv`. -/
def update_game (s : GState) (guess : List Char) : GState :=
  let level := update_level s.level guess
  if level.complete then
    if level.won then
      { s with
        level := level
        game := { s.game with
          score := s.game.score + level.attempts_remaining } }
    else
      { s with
        level := level
        game := { s.game with game_over := true }
        user := { s.user with
          total_played := s.user.total_played + 1
          total_score := s.user.total_score + s.game.score
          average_score := (s.user.total_score + s.game.score).fdiv
            (s.user.total_played + 1) } }
  else { s with level := level }

/-- Python `str.isalpha()`: non-empty and all alphabetic. -/
def isalpha (g : List Char) : Bool := !g.isEmpty && g.all Char.isAlpha

/-- Outcome of `HangmanApi.make_move`: the three `BadRequestException`s
(ValidationErrors), the two informational no-op responses, and a processed
move. -/
inductive MoveResult where
  | invalidGuess
  | gameOverMsg
  | levelCompleteMsg
  | badLength
  | duplicateGuess
  | moved
deriving DecidableEq

/-- api.py `HangmanApi.make_move`: the guard sequence, then
`game.update_game(request.guess)`. -/
def make_move (s : GState) (guess : List Char) : MoveResult × GState :=
  if isalpha guess = false then (MoveResult.invalidGuess, s)
  else if s.game.game_over then (MoveResult.gameOverMsg, s)
  else if s.level.complete then (MoveResult.levelCompleteMsg, s)
  else if guess.length ≠ s.level.word.name.length ∧ guess.length ≠ 1 then
    (MoveResult.badLength, s)
  else if guess ∈ s.level.guesses then (MoveResult.duplicateGuess, s)
  else (MoveResult.moved, update_game s guess)

/-- `Game.new_level` / `Level.new_level` as a state transition: a fresh
level with the supplied word, `attempts_remaining` seeded from
`game.failed_attempts_allowed` (the choice of word itself is the
separately modelled `select_word`). -/
def new_level (s : GState) (w : Word) : GState :=
  { s with level :=
    { word := w
      level_number := s.level.level_number + 1
      guesses := []
      attempts_remaining := s.game.failed_attempts_allowed
      complete := false
      won := false } }

/-- api.py `HangmanApi.next_level`: informational no-op when the game is
over or the current level is not complete; otherwise replace the current
level with a fresh one. -/
def next_level (s : GState) (w : Word) : GState :=
  if s.game.game_over then s
  else if s.level.complete = false then s
  else new_level s w

/-- One request against a game: a move (`make_move`) or a next-level
request (with the word the bank supplies). -/
inductive Move where
  | guess (g : List Char)
  | nextLevel (w : Word)

/-- The state transition of one request. -/
def step (s : GState) : Move → GState
  | Move.guess g => (make_move s g).2
  | Move.nextLevel w => next_level s w

/-- A sequence of requests against one game. -/
def run (s : GState) (ms : List Move) : GState := ms.foldl step s

/-- The level-win events along a run: whenever a request turns the current
level from incomplete to complete-and-won, record its `attempts_remaining`
at that moment. -/
def winAwards (s : GState) : List Move → List Int
  | [] => []
  | m :: ms =>
    (if s.level.complete = false ∧ (step s m).level.complete = true ∧
        (step s m).level.won = true
     then [(step s m).level.attempts_remaining] else []) ++
    winAwards (step s m) ms

/-- The stored-state invariant of a level (spec section 3):
`attempts_remaining` is never negative, and once it is 0 the level is
complete and lost. -/
def LInv (lv : Level) : Prop :=
  0 ≤ lv.attempts_remaining ∧
  (lv.attempts_remaining = 0 → lv.complete = true ∧ lv.won = false)

/-- api.py `HangmanApi.get_user_rankings`:
`User.query().order(-User.average_score)` — a datastore sort by
`average_score` descending, stable on the stored order (the datastore
breaks ties by entity key). -/
def get_user_rankings (users : List User) : List User :=
  users.mergeSort (fun u v => decide (v.average_score ≤ u.average_score))

/-- `Level.new_level` word selection with the random draws made explicit:
`word_key = Word.get_random_word()` is the first element of the draw
stream, and each iteration of `while word_key in used_word_keys` consumes
the next draw.  `used` is `used_word_keys` — one entry per level the user
has played, with multiplicity — and `word_count` is
`Word.query().count()`. -/
def select_word (draws : List Nat) (used : List Nat) (word_count : Nat) :
    Option Nat :=
  if used.length < word_count then draws.find? (fun k => !(used.contains k))
  else draws.head?

/-- The fields declared on models.py `NewGameForm` (protorpc message). -/
def newGameFormFields : List String :=
  ["user_name", "email", "failed_attempts_allowed"]

/-- Python attribute access on a protorpc message: a declared field gives
its value, any other attribute raises `AttributeError` (modelled as
`none`). -/
def getattr (fields : List String) (value : String → Int) (attr : String) :
    Option Int :=
  if attr ∈ fields then some (value attr) else none

/-- The two ways `HangmanApi.new_game` can fail before creating anything. -/
inductive ApiError where
  | attributeError
  | badRequest
deriving DecidableEq

/-- api.py `HangmanApi.new_game` up to its validation: it reads
`request.attempts_allowed` — which is not a field of `NewGameForm` (the
form declares `failed_attempts_allowed`) — and then checks
`not in range(1, 10)`. -/
def new_game_validate (value : String → Int) : Except ApiError Int :=
  match getattr newGameFormFields value "attempts_allowed" with
  | none => Except.error ApiError.attributeError
  | some v =>
    if v < 1 ∨ 9 < v then Except.error ApiError.badRequest else Except.ok v

/-- The fields of `GameForm` that `Game.to_form` computes from game and
level state (entity key, user name and date omitted). -/
structure GameForm where
  game_over : Bool
  score : Int
  guesses : List (List Char)
  level_complete : Bool
  attempts_remaining : Int
  clue : List Char
  guessed_word : List Char
deriving DecidableEq

/-- models.py `Game.to_form` (its `message` argument does not affect the
modelled fields): while the game is running `guessed_word` is the masked
rendering; once the game is over it is the raw word. -/
def to_form (s : GState) : GameForm :=
  { game_over := s.game.game_over
    score := s.game.score
    guesses := s.level.guesses
    level_complete := s.level.complete
    attempts_remaining := s.level.attempts_remaining
    clue := s.level.word.clue
    guessed_word :=
      if s.game.game_over then s.level.word.name
      else get_guessed_word s.level.word s.level.guesses }

/-- Refinement comparison, from the spec: `average_score =
round(total_score/total_played)` read as rounding of the exact rational
quotient. -/
def spec_average_score (total_score total_played : Int) : Int :=
  round ((total_score : ℚ) / (total_played : ℚ))


/-- The spec's worked example: a fresh game on word "CAT" with 3 failed
attempts allowed. -/
def catState : GState :=
  ⟨⟨['u'], 0, 0, 0⟩, ⟨3, false, 0⟩,
    ⟨⟨['C', 'A', 'T'], ['p']⟩, 1, [], 3, false, false⟩⟩

/-- The guess sequence "X", "C", "A", "T" of the worked example. -/
def catMoves : List Move :=
  [Move.guess ['X'], Move.guess ['C'], Move.guess ['A'], Move.guess ['T']]

/-- A game about to be lost: the user has one finished game (total_score 0,
total_played 1), the running game has score 3, and its level on word "d"
has one attempt left. -/
def lossState : GState :=
  ⟨⟨['u'], 0, 1, 0⟩, ⟨1, false, 3⟩, ⟨⟨['d'], ['p']⟩, 1, [], 1, false, false⟩⟩

/-! Length and position lemmas for the masking function. -/

lemma foldl_set_length (c : Char) (ps : List Nat) (gw : List Char) :
    (ps.foldl (fun acc i => acc.set (3 * i + 1) c) gw).length = gw.length := by
  induction ps generalizing gw with
  | nil => rfl
  | cons i ps ih => simp [List.foldl_cons, ih, List.length_set]

lemma revealLetter_length (name gw : List Char) (c : Char) :
    (revealLetter name gw c).length = gw.length :=
  foldl_set_length c _ gw

lemma fullReveal_length (name : List Char) :
    (fullReveal name).length = 3 * name.length := by
  induction name with
  | nil => rfl
  | cons c cs ih =>
    simp [fullReveal, List.flatMap_cons, revealCell] at ih ⊢
    omega

lemma initMask_length (len : Nat) : (initMask len).length = 3 * len := by
  induction len with
  | zero => rfl
  | succ n ih =>
    simp [initMask, List.replicate_succ, List.flatten_cons] at ih ⊢
    omega

lemma get_guessed_word_loop_length (name : List Char) (gs : List (List Char))
    (gw : List Char) (h : gw.length = 3 * name.length) :
    (get_guessed_word_loop name gs gw).length = 3 * name.length := by
  induction gs generalizing gw with
  | nil => simpa [get_guessed_word_loop] using h
  | cons g rest ih =>
    by_cases hg : g = name
    · simp [get_guessed_word_loop, hg, fullReveal_length]
    · by_cases hlen : 1 < g.length
      · simpa [get_guessed_word_loop, hg, hlen] using ih gw h
      · match g with
        | [] =>
          simp only [get_guessed_word_loop, hg, if_false, hlen]
          exact ih gw h
        | [c] =>
          simp only [get_guessed_word_loop, hg, if_false, hlen]
          exact ih (revealLetter name gw c)
            (by rw [revealLetter_length]; exact h)
        | c₁ :: c₂ :: t => simp [List.length_cons] at hlen

lemma get_guessed_word_length (w : Word) (gs : List (List Char)) :
    (get_guessed_word w gs).length = 3 * w.name.length :=
  get_guessed_word_loop_length _ _ _ (initMask_length _)

lemma foldl_set_getElem? (c : Char) (ps : List Nat) (gw : List Char) (j : Nat)
    (hlt : ∀ i ∈ ps, 3 * i + 1 < gw.length) :
    (ps.foldl (fun acc i => acc.set (3 * i + 1) c) gw)[3 * j + 1]? =
      if j ∈ ps then some c else gw[3 * j + 1]? := by
  induction ps generalizing gw with
  | nil => simp
  | cons i ps ih =>
    rw [List.foldl_cons]
    have hlen : (gw.set (3 * i + 1) c).length = gw.length := List.length_set ..
    have hlt' : ∀ k ∈ ps, 3 * k + 1 < (gw.set (3 * i + 1) c).length := by
      intro k hk; rw [hlen]; exact hlt k (List.mem_cons_of_mem _ hk)
    rw [ih _ hlt']
    by_cases hjp : j ∈ ps
    · simp [hjp, List.mem_cons]
    · simp only [hjp, if_false]
      by_cases hij : j = i
      · subst hij
        rw [List.getElem?_set_self (hlt j (List.mem_cons_self ..))]
        simp [List.mem_cons]
      · rw [List.getElem?_set_ne (by omega)]
        simp [List.mem_cons, hjp, hij]

lemma mem_revealIndexes (name : List Char) (c : Char) (j : Nat) :
    (j ∈ (name.enum.filter (fun p => p.2 == c)).map Prod.fst) ↔
      name[j]? = some c := by
  constructor
  · rintro hmem
    obtain ⟨⟨i, b⟩, hp, rfl⟩ := List.mem_map.mp hmem
    obtain ⟨henum, hbc⟩ := List.mem_filter.mp hp
    have : b = c := by simpa using hbc
    subst this
    exact List.mk_mem_enum_iff_getElem?.mp henum
  · intro hj
    exact List.mem_map.mpr ⟨(j, c),
      List.mem_filter.mpr ⟨List.mk_mem_enum_iff_getElem?.mpr hj, by simp⟩, rfl⟩

lemma revealLetter_getElem? (name gw : List Char) (c : Char) (j : Nat)
    (h : gw.length = 3 * name.length) :
    (revealLetter name gw c)[3 * j + 1]? =
      if name[j]? = some c then some c else gw[3 * j + 1]? := by
  unfold revealLetter
  rw [foldl_set_getElem?]
  · by_cases hj : name[j]? = some c
    · simp [hj, (mem_revealIndexes name c j).mpr hj]
    · have : ¬ (j ∈ (name.enum.filter (fun p => p.2 == c)).map Prod.fst) :=
        fun hm => hj ((mem_revealIndexes name c j).mp hm)
      simp [hj, this]
  · intro i hi
    have hic := (mem_revealIndexes name c i).mp hi
    have : i < name.length := by
      by_contra hge
      rw [List.getElem?_eq_none (by omega)] at hic
      exact Option.noConfusion hic
    omega

lemma fullReveal_getElem? (name : List Char) (j : Nat) :
    (fullReveal name)[3 * j + 1]? = name[j]? := by
  induction name generalizing j with
  | nil => simp [fullReveal]
  | cons a t ih =>
    cases j with
    | zero => simp [fullReveal, List.flatMap_cons, revealCell]
    | succ j =>
      rw [fullReveal, List.flatMap_cons]
      have hidx : 3 * (j + 1) + 1 = (revealCell a).length + (3 * j + 1) := by
        simp [revealCell]; omega
      rw [hidx, List.getElem?_append_right (by omega)]
      simpa [revealCell] using ih j

lemma initMask_getElem? (len j : Nat) :
    (initMask len)[3 * j + 1]? = if j < len then some '_' else none := by
  induction len generalizing j with
  | zero =>
    simp [initMask]
  | succ n ih =>
    rw [initMask, List.replicate_succ, List.flatten_cons]
    cases j with
    | zero => simp
    | succ j =>
      have hidx : 3 * (j + 1) + 1 = 3 + (3 * j + 1) := by omega
      rw [hidx, List.getElem?_append_right (by simp)]
      have := ih j
      simp only [initMask] at this
      simpa using this

lemma get_guessed_word_loop_of_mem (name : List Char) (gs : List (List Char))
    (gw : List Char) (h : name ∈ gs) :
    get_guessed_word_loop name gs gw = fullReveal name := by
  induction gs generalizing gw with
  | nil => cases h
  | cons g rest ih =>
    by_cases hg : g = name
    · simp [get_guessed_word_loop, hg]
    · have hrest : name ∈ rest := by
        rcases List.mem_cons.mp h with he | hm
        · exact absurd he.symm hg
        · exact hm
      by_cases hlen : 1 < g.length
      · simpa [get_guessed_word_loop, hg, hlen] using ih gw hrest
      · match g with
        | [] =>
          simp only [get_guessed_word_loop, hg, if_false, hlen]
          exact ih gw hrest
        | [c] =>
          simp only [get_guessed_word_loop, hg, if_false, hlen]
          exact ih _ hrest
        | c₁ :: c₂ :: t => simp [List.length_cons] at hlen

lemma get_guessed_word_loop_getElem? (name : List Char) (gs : List (List Char))
    (gw : List Char) (h : gw.length = 3 * name.length) (hname : name ∉ gs)
    (j : Nat) (c : Char) (hj : name[j]? = some c) :
    (get_guessed_word_loop name gs gw)[3 * j + 1]? =
      if [c] ∈ gs then some c else gw[3 * j + 1]? := by
  induction gs generalizing gw with
  | nil => simp [get_guessed_word_loop]
  | cons g rest ih =>
    have hgname : g ≠ name := fun e => hname (e ▸ List.mem_cons_self ..)
    have hnrest : name ∉ rest := fun hr => hname (List.mem_cons_of_mem _ hr)
    by_cases hlen : 1 < g.length
    · have hne : ([c] : List Char) ≠ g := by
        intro e; rw [← e] at hlen; simp at hlen
      rw [show get_guessed_word_loop name (g :: rest) gw =
            get_guessed_word_loop name rest gw by
          simp [get_guessed_word_loop, hgname, hlen]]
      rw [ih gw h hnrest]
      simp [List.mem_cons, hne]
    · match g with
      | [] =>
        have hne : ([c] : List Char) ≠ [] := by simp
        rw [show get_guessed_word_loop name ([] :: rest) gw =
              get_guessed_word_loop name rest gw by
            simp [get_guessed_word_loop, hgname, hlen]]
        rw [ih gw h hnrest]
        simp [List.mem_cons, hne]
      | [c'] =>
        rw [show get_guessed_word_loop name ([c'] :: rest) gw =
              get_guessed_word_loop name rest (revealLetter name gw c') by
            simp only [get_guessed_word_loop, hgname, if_false, hlen]]
        rw [ih _ (by rw [revealLetter_length]; exact h) hnrest]
        by_cases hcrest : ([c] : List Char) ∈ rest
        · simp [hcrest, List.mem_cons]
        · simp only [hcrest, if_false]
          rw [revealLetter_getElem? _ _ _ _ h, hj]
          by_cases hcc : c' = c
          · subst hcc
            simp [List.mem_cons]
          · have h1 : ¬ (some c = some c') := by
              intro e; exact hcc (Option.some.inj e).symm
            have h2 : ¬ (([c] : List Char) ∈ [c'] :: rest) := by
              intro hm
              rcases List.mem_cons.mp hm with he | hm2
              · exact hcc (List.cons.inj he).1.symm
              · exact hcrest hm2
            simp [h1, h2]
      | c₁ :: c₂ :: t => simp [List.length_cons] at hlen

/-- **C3**: for a word of length L, the masked rendering is a sequence of L
three-character cells (3·L characters), and the letter slot of cell i (the
character at index 3·i+1) holds the revealed character `word[i]` exactly
when some accepted single-letter guess equals `word[i]` — or when an exact
whole-word guess was made, which reveals every position — and the
placeholder underscore otherwise, so no position is ever revealed that was
not explicitly guessed. -/
theorem C3_mask_reveals_only_guessed (w : Word) (gs : List (List Char))
    (j : Nat) (c : Char) (hj : w.name[j]? = some c) :
    (get_guessed_word w gs).length = 3 * w.name.length ∧
    (get_guessed_word w gs)[3 * j + 1]? =
      some (if w.name ∈ gs ∨ [c] ∈ gs then c else '_') := by
  refine ⟨get_guessed_word_length w gs, ?_⟩
  have hjlen : j < w.name.length := by
    by_contra hge
    rw [List.getElem?_eq_none (by omega)] at hj
    exact Option.noConfusion hj
  by_cases hw : w.name ∈ gs
  · rw [get_guessed_word, get_guessed_word_loop_of_mem _ _ _ hw,
      fullReveal_getElem?, hj]
    simp [hw]
  · rw [get_guessed_word,
      get_guessed_word_loop_getElem? _ _ _ (initMask_length _) hw _ _ hj]
    by_cases hc : ([c] : List Char) ∈ gs
    · simp [hc, hw]
    · simp [hc, hw, initMask_getElem?, hjlen]

/-- Witness for C3 at word "cat" with guesses ["x", "a"]: cell 1 shows the
revealed 'a'. -/
theorem C3_mask_reveals_only_guessed_witness :
    (get_guessed_word ⟨['c', 'a', 't'], ['p']⟩ [['x'], ['a']]).length =
      3 * (⟨['c', 'a', 't'], ['p']⟩ : Word).name.length ∧
    (get_guessed_word ⟨['c', 'a', 't'], ['p']⟩ [['x'], ['a']])[3 * 1 + 1]? =
      some (if (⟨['c', 'a', 't'], ['p']⟩ : Word).name ∈ [['x'], ['a']] ∨
        [('a' : Char)] ∈ [['x'], ['a']] then 'a' else '_') :=
  C3_mask_reveals_only_guessed ⟨['c', 'a', 't'], ['p']⟩ [['x'], ['a']] 1 'a'
    (by decide)

/-- **C1 counterexample**: `get_user_rankings` sorts by `average_score`
descending, not by `total_score` descending.  With stored aggregates
A = (total_score 10, total_played 10, average 1) and
B = (total_score 5, total_played 1, average 5), the operation returns
B first although A's total_score is strictly greater, so the order is not
total_score-descending as claimed. -/
theorem C1_rankings_counterexample :
    get_user_rankings [⟨['A'], 10, 10, 1⟩, ⟨['B'], 5, 1, 5⟩] =
      [⟨['B'], 5, 1, 5⟩, ⟨['A'], 10, 10, 1⟩] ∧
    ((⟨['B'], 5, 1, 5⟩ : User).total_score <
      (⟨['A'], 10, 10, 1⟩ : User).total_score) := by
  constructor
  · simp [get_user_rankings, List.mergeSort]
  · norm_num

/-- **C1 amended**: the user-rankings operation returns a permutation of
the users ordered by `average_score` descending (ties kept in stored
order); on the spec's sample — aggregates (A: 10, 2), (B: 10, 1),
(C: 5, 1), whose stored averages are 5, 10 and 5 — the returned order is
[B, A, C]. -/
theorem C1_rankings_amended :
    (∀ users : List User,
      (get_user_rankings users).Perm users ∧
      (get_user_rankings users).Pairwise
        (fun u v => v.average_score ≤ u.average_score)) ∧
    get_user_rankings
        [⟨['A'], 10, 2, 5⟩, ⟨['B'], 10, 1, 10⟩, ⟨['C'], 5, 1, 5⟩] =
      [⟨['B'], 10, 1, 10⟩, ⟨['A'], 10, 2, 5⟩, ⟨['C'], 5, 1, 5⟩] := by
  constructor
  · intro users
    refine ⟨List.mergeSort_perm _ _, ?_⟩
    have h := @List.sorted_mergeSort User
      (fun u v : User => decide (v.average_score ≤ u.average_score))
      (fun a b c hab hbc => by
        simp only [decide_eq_true_eq] at hab hbc ⊢; omega)
      (fun a b => by
        simp only [Bool.or_eq_true, decide_eq_true_eq]; omega)
      users
    exact h.imp (fun hab => by simpa using hab)
  · simp [get_user_rankings, List.mergeSort]

/-- **C2 counterexample**: the code guards the "pick an unused word" loop by
`len(used_word_keys) < word_count`, counting the user's level records with
multiplicity, not distinct words.  With a bank of 2 words (keys 0 and 1)
and a user who has played word 0 twice, the list [0, 0] has length 2, the
fallback branch is taken, and the draw 0 — a word the user has already
played — is returned even though word 1 has never been played (the distinct
played set is a strict subset of the bank). -/
theorem C2_unused_word_counterexample :
    select_word [0] [0, 0] 2 = some 0 ∧ (0 ∈ ([0, 0] : List Nat)) ∧
    ¬ ((1 : Nat) ∈ ([0, 0] : List Nat)) := by
  refine ⟨?_, by decide, by decide⟩
  simp [select_word]

/-- **C2 amended**: when the number of level records the user has played
(counted with multiplicity) is smaller than the size of the word bank, the
selected word is one the user has not played before; only when that count
reaches the bank size may a previously played word be selected. -/
theorem C2_unused_word_amended (draws used : List Nat) (word_count : Nat)
    (h : used.length < word_count) (k : Nat)
    (hk : select_word draws used word_count = some k) : ¬ (k ∈ used) := by
  unfold select_word at hk
  rw [if_pos h] at hk
  have hp := List.find?_some hk
  intro hmem
  simp at hp
  exact hp hmem

/-- Witness for the amended C2: one level record [0] against a bank of 2,
draw stream [0, 1]: the resampling loop skips the used key 0 and returns
the unused key 1. -/
theorem C2_unused_word_amended_witness :
    ([0] : List Nat).length < 2 ∧
    select_word [0, 1] [0] 2 = some 1 ∧ ¬ ((1 : Nat) ∈ ([0] : List Nat)) :=
  ⟨by decide, by simp [select_word], by
    exact C2_unused_word_amended [0, 1] [0] 2 (by decide) 1
      (by simp [select_word])⟩

/-- **C6**: a guess already present in the current level's guesses — on a
running game whose level is still open, with a well-formed guess (the form
any previously accepted guess has) — is rejected by `make_move` as a
`BadRequestException` (ValidationError) before `update_game` runs, and the
state is returned unchanged. -/
theorem C6_duplicate_guess_rejected (s : GState) (g : List Char)
    (h1 : isalpha g = true) (h2 : s.game.game_over = false)
    (h3 : s.level.complete = false)
    (h4 : g.length = s.level.word.name.length ∨ g.length = 1)
    (h5 : g ∈ s.level.guesses) :
    make_move s g = (MoveResult.duplicateGuess, s) := by
  unfold make_move
  rw [h1]
  simp only [Bool.true_eq_false, if_false, h2, h3]
  have h4' : ¬ (g.length ≠ s.level.word.name.length ∧ g.length ≠ 1) := by
    rcases h4 with h | h
    · exact fun hc => hc.1 h
    · exact fun hc => hc.2 h
  rw [if_neg h4', if_pos h5]
  simp

/-- Witness for C6: a running game on word "cat" where 'c' was already
guessed; guessing 'c' again returns `duplicateGuess` and the state
untouched. -/
theorem C6_duplicate_guess_rejected_witness :
    make_move
      ⟨⟨['u'], 0, 0, 0⟩, ⟨3, false, 0⟩,
        ⟨⟨['c', 'a', 't'], ['p']⟩, 1, [['c']], 3, false, false⟩⟩ ['c'] =
      (MoveResult.duplicateGuess,
        ⟨⟨['u'], 0, 0, 0⟩, ⟨3, false, 0⟩,
          ⟨⟨['c', 'a', 't'], ['p']⟩, 1, [['c']], 3, false, false⟩⟩) :=
  C6_duplicate_guess_rejected _ ['c'] (by decide) rfl rfl (by decide)
    (by decide)

/-- **C8** (code bug): `HangmanApi.new_game` reads
`request.attempts_allowed`, but `NewGameForm` declares the field
`failed_attempts_allowed`, so for every request — whatever values its
declared fields carry — the attribute access raises `AttributeError`
before any validation or creation happens; the claimed [1, 9] validation
and game creation are never reached. -/
theorem C8_new_game_attribute_error (value : String → Int) :
    new_game_validate value = Except.error ApiError.attributeError := by
  unfold new_game_validate getattr newGameFormFields
  simp

/-- **C9**: the `GameForm` for a game has the raw target word in
`guessed_word` exactly when the game is over; while the game is running
`guessed_word` is the masked rendering of the current level's guesses
(which, being a padded 3·L-character string, never equals the raw word for
a non-empty word). -/
theorem C9_guessed_word_iff_game_over (s : GState)
    (h : s.level.word.name ≠ []) :
    ((to_form s).guessed_word = s.level.word.name ↔
      s.game.game_over = true) ∧
    (s.game.game_over = false →
      (to_form s).guessed_word =
        get_guessed_word s.level.word s.level.guesses) := by
  have hmask : get_guessed_word s.level.word s.level.guesses ≠
      s.level.word.name := by
    intro he
    have h1 := get_guessed_word_length s.level.word s.level.guesses
    rw [he] at h1
    have h2 : s.level.word.name.length ≠ 0 := by
      intro h0; exact h (List.eq_nil_of_length_eq_zero h0)
    omega
  unfold to_form
  by_cases hover : s.game.game_over
  · simp [hover]
  · simp only [Bool.not_eq_true] at hover
    simp [hover, hmask]

/-- Witness for C9: a running game on word "cat" with guess 'c' made: the
form's guessed_word is the mask, not the raw word. -/
theorem C9_guessed_word_iff_game_over_witness :
    ((to_form ⟨⟨['u'], 0, 0, 0⟩, ⟨3, false, 0⟩,
        ⟨⟨['c', 'a', 't'], ['p']⟩, 1, [['c']], 3, false, false⟩⟩).guessed_word =
      (⟨⟨['u'], 0, 0, 0⟩, ⟨3, false, 0⟩,
        ⟨⟨['c', 'a', 't'], ['p']⟩, 1, [['c']], 3, false,
          false⟩⟩ : GState).level.word.name ↔ false = true) ∧
    (false = false →
      (to_form ⟨⟨['u'], 0, 0, 0⟩, ⟨3, false, 0⟩,
          ⟨⟨['c', 'a', 't'], ['p']⟩, 1, [['c']], 3, false,
            false⟩⟩).guessed_word =
        get_guessed_word ⟨['c', 'a', 't'], ['p']⟩ [['c']]) :=
  C9_guessed_word_iff_game_over
    ⟨⟨['u'], 0, 0, 0⟩, ⟨3, false, 0⟩,
      ⟨⟨['c', 'a', 't'], ['p']⟩, 1, [['c']], 3, false, false⟩⟩ (by decide)

/-- **C10**: on a level whose word has length 1, a (length-1) guess takes
the whole-word branch of `update_level` — never the letter branch — so it
wins the level exactly when it equals the word, and otherwise consumes an
attempt. -/
theorem C10_length_one_word_whole_word_branch (lv : Level) (g : List Char)
    (hw : lv.word.name.length = 1) (hg : g.length = 1)
    (ha : 1 ≤ lv.attempts_remaining) (hwon : lv.won = false) :
    update_level lv g =
      finish_level
        (word_guess_step { lv with guesses := lv.guesses ++ [g] } g) ∧
    ((update_level lv g).won = true ↔ g = lv.word.name) ∧
    (g ≠ lv.word.name →
      (update_level lv g).attempts_remaining =
        lv.attempts_remaining - 1) := by
  have hnl : ¬ lv.attempts_remaining < 1 := by omega
  have h1 : update_level lv g =
      finish_level
        (word_guess_step { lv with guesses := lv.guesses ++ [g] } g) := by
    unfold update_level
    simp [hg, hw]
  refine ⟨h1, ?_, ?_⟩
  · rw [h1]
    by_cases heq : g = lv.word.name
    · simp [word_guess_step, finish_level, heq, hnl]
    · by_cases hlt : lv.attempts_remaining - 1 < 1 <;>
        simp [word_guess_step, finish_level, heq, hlt, hwon]
  · intro hne
    rw [h1]
    by_cases hlt : lv.attempts_remaining - 1 < 1 <;>
      simp [word_guess_step, finish_level, hne, hlt]

/-- Witness for C10 at word "d", attempts 2, wrong guess "z": the
whole-word branch is taken and one attempt is consumed. -/
theorem C10_length_one_word_whole_word_branch_witness :
    update_level ⟨⟨['d'], ['p']⟩, 1, [], 2, false, false⟩ ['z'] =
      finish_level
        (word_guess_step
          { (⟨⟨['d'], ['p']⟩, 1, [], 2, false, false⟩ : Level) with
            guesses := [] ++ [['z']] } ['z']) ∧
    ((update_level ⟨⟨['d'], ['p']⟩, 1, [], 2, false, false⟩ ['z']).won =
        true ↔ ['z'] = (⟨⟨['d'], ['p']⟩, 1, [], 2, false,
          false⟩ : Level).word.name) ∧
    (['z'] ≠ (⟨⟨['d'], ['p']⟩, 1, [], 2, false, false⟩ : Level).word.name →
      (update_level ⟨⟨['d'], ['p']⟩, 1, [], 2, false,
        false⟩ ['z']).attempts_remaining = 2 - 1) :=
  C10_length_one_word_whole_word_branch
    ⟨⟨['d'], ['p']⟩, 1, [], 2, false, false⟩ ['z'] rfl rfl (by norm_num) rfl

/-! Helper lemmas about one processed guess. -/

lemma finish_level_attempts (lv : Level) :
    (finish_level lv).attempts_remaining = lv.attempts_remaining := by
  unfold finish_level
  split <;> rfl

lemma finish_level_clamp (lv : Level) (h : lv.attempts_remaining < 1) :
    (finish_level lv).complete = true ∧ (finish_level lv).won = false := by
  unfold finish_level
  rw [if_pos h]
  exact ⟨rfl, rfl⟩

lemma word_guess_step_attempts (lv : Level) (g : List Char) :
    (word_guess_step lv g).attempts_remaining = lv.attempts_remaining ∨
    (word_guess_step lv g).attempts_remaining =
      lv.attempts_remaining - 1 := by
  unfold word_guess_step
  split
  · exact Or.inl rfl
  · exact Or.inr rfl

lemma letter_guess_step_attempts (lv : Level) (g : List Char) :
    (letter_guess_step lv g).attempts_remaining = lv.attempts_remaining ∨
    (letter_guess_step lv g).attempts_remaining =
      lv.attempts_remaining - 1 := by
  unfold letter_guess_step
  split
  · exact Or.inl rfl
  · split
    · exact Or.inr rfl
    · exact Or.inl rfl

lemma update_level_attempts_cases (lv : Level) (g : List Char) :
    (update_level lv g).attempts_remaining = lv.attempts_remaining ∨
    (update_level lv g).attempts_remaining =
      lv.attempts_remaining - 1 := by
  unfold update_level
  rw [finish_level_attempts]
  split
  · exact word_guess_step_attempts _ g
  · exact letter_guess_step_attempts _ g

lemma update_level_clamp (lv : Level) (g : List Char)
    (h : (update_level lv g).attempts_remaining < 1) :
    (update_level lv g).complete = true ∧
    (update_level lv g).won = false := by
  unfold update_level at h ⊢
  rw [finish_level_attempts] at h
  exact finish_level_clamp _ h

lemma update_game_level (s : GState) (g : List Char) :
    (update_game s g).level = update_level s.level g := by
  simp only [update_game]
  split
  · split <;> rfl
  · rfl

lemma make_move_snd_cases (s : GState) (g : List Char) :
    (make_move s g).2 = s ∨
    ((make_move s g).2 = update_game s g ∧ s.level.complete = false ∧
      s.game.game_over = false) := by
  unfold make_move
  by_cases ha : isalpha g = false
  · simp [ha]
  · by_cases hov : s.game.game_over = true
    · simp [ha, hov]
    · by_cases hc : s.level.complete = true
      · simp [ha, hov, hc]
      · by_cases hlen : g.length ≠ s.level.word.name.length ∧
            g.length ≠ 1
        · simp [ha, hov, hc, hlen]
        · by_cases hdup : g ∈ s.level.guesses
          · simp [ha, hov, hc, hlen, hdup]
          · simp [ha, hov, hc, hlen, hdup]

/-- **C5**: under the level invariant, one `make_move` request never
increases `attempts_remaining`, keeps it non-negative, forces
`complete = true, won = false` whenever it reaches 0, and processes
nothing on an already complete level (the state comes back unchanged). -/
theorem C5_attempts_monotone_never_negative (s : GState) (g : List Char)
    (h : LInv s.level) :
    LInv ((make_move s g).2).level ∧
    ((make_move s g).2).level.attempts_remaining ≤
      s.level.attempts_remaining ∧
    (s.level.complete = true → (make_move s g).2 = s) := by
  obtain ⟨h0, hz⟩ := h
  rcases make_move_snd_cases s g with heq | ⟨heq, hcf, _⟩
  · rw [heq]
    exact ⟨⟨h0, hz⟩, le_refl _, fun _ => rfl⟩
  · rw [heq, update_game_level]
    have ha1 : 1 ≤ s.level.attempts_remaining := by
      by_contra hlt
      have h00 : s.level.attempts_remaining = 0 := by omega
      have hcc := (hz h00).1
      rw [hcf] at hcc
      exact Bool.noConfusion hcc
    have hmono : (update_level s.level g).attempts_remaining ≤
        s.level.attempts_remaining ∧
        0 ≤ (update_level s.level g).attempts_remaining := by
      rcases update_level_attempts_cases s.level g with hat | hat <;>
        rw [hat] <;> omega
    refine ⟨⟨hmono.2, ?_⟩, hmono.1, fun hcc => ?_⟩
    · intro h00
      exact update_level_clamp s.level g (by omega)
    · rw [hcf] at hcc
      exact Bool.noConfusion hcc

/-- Witness for C5: a fresh level on "cat" with 3 attempts satisfies the
invariant, and guessing 'x' preserves it without increasing the
attempts. -/
theorem C5_attempts_monotone_never_negative_witness :
    LInv ((make_move
      ⟨⟨['u'], 0, 0, 0⟩, ⟨3, false, 0⟩,
        ⟨⟨['c', 'a', 't'], ['p']⟩, 1, [], 3, false, false⟩⟩ ['x']).2).level ∧
    ((make_move
      ⟨⟨['u'], 0, 0, 0⟩, ⟨3, false, 0⟩,
        ⟨⟨['c', 'a', 't'], ['p']⟩, 1, [], 3, false,
          false⟩⟩ ['x']).2).level.attempts_remaining ≤ 3 ∧
    ((⟨⟨['u'], 0, 0, 0⟩, ⟨3, false, 0⟩,
        ⟨⟨['c', 'a', 't'], ['p']⟩, 1, [], 3, false,
          false⟩⟩ : GState).level.complete = true →
      (make_move
        ⟨⟨['u'], 0, 0, 0⟩, ⟨3, false, 0⟩,
          ⟨⟨['c', 'a', 't'], ['p']⟩, 1, [], 3, false, false⟩⟩ ['x']).2 =
        ⟨⟨['u'], 0, 0, 0⟩, ⟨3, false, 0⟩,
          ⟨⟨['c', 'a', 't'], ['p']⟩, 1, [], 3, false, false⟩⟩) :=
  C5_attempts_monotone_never_negative
    ⟨⟨['u'], 0, 0, 0⟩, ⟨3, false, 0⟩,
      ⟨⟨['c', 'a', 't'], ['p']⟩, 1, [], 3, false, false⟩⟩ ['x']
    ⟨by norm_num, fun hx => absurd hx (by norm_num)⟩

lemma no_transition_score (s : GState) :
    s.game.score = s.game.score +
      (if s.level.complete = false ∧ s.level.complete = true ∧
          s.level.won = true then s.level.attempts_remaining else 0) := by
  rw [if_neg]
  · ring
  · rintro ⟨a, b, _⟩
    rw [a] at b
    exact Bool.noConfusion b

lemma update_game_score (s : GState) (g : List Char) :
    (update_game s g).game.score = s.game.score +
      (if (update_level s.level g).complete = true ∧
          (update_level s.level g).won = true
       then (update_level s.level g).attempts_remaining else 0) := by
  by_cases hc : (update_level s.level g).complete = true
  · by_cases hw : (update_level s.level g).won = true
    · simp [update_game, hc, hw]
    · simp [update_game, hc, hw]
  · simp [update_game, hc]

lemma step_score (s : GState) (m : Move) :
    (step s m).game.score = s.game.score +
      (if s.level.complete = false ∧ (step s m).level.complete = true ∧
          (step s m).level.won = true
       then (step s m).level.attempts_remaining else 0) := by
  cases m with
  | nextLevel w =>
    simp only [step]
    unfold next_level
    by_cases hov : s.game.game_over = true
    · rw [if_pos hov]
      exact no_transition_score s
    · rw [if_neg hov]
      by_cases hcf : s.level.complete = false
      · rw [if_pos hcf]
        exact no_transition_score s
      · rw [if_neg hcf]
        unfold new_level
        rw [if_neg]
        · ring
        · rintro ⟨_, b, _⟩
          exact Bool.noConfusion b
  | guess g =>
    simp only [step]
    rcases make_move_snd_cases s g with heq | ⟨heq, hcf, _⟩
    · rw [heq]
      exact no_transition_score s
    · rw [heq, update_game_level, update_game_score]
      congr 1
      have hiff : ((update_level s.level g).complete = true ∧
          (update_level s.level g).won = true) ↔
          (s.level.complete = false ∧
            (update_level s.level g).complete = true ∧
            (update_level s.level g).won = true) :=
        ⟨fun x => ⟨hcf, x.1, x.2⟩, fun x => ⟨x.2.1, x.2.2⟩⟩
      rw [if_congr hiff rfl rfl]

/-- **C4**: along any run, the game score grows by exactly the level's
`attempts_remaining` at each incomplete-to-complete-and-won transition, so
the final score is the initial score plus the sum of the remaining
attempts recorded at every level win; on the spec's worked example (word
"CAT", 3 attempts allowed, guesses "X","C","A","T") the level is won with
2 attempts remaining and the score becomes 2. -/
theorem C4_score_is_sum_of_win_awards :
    (∀ (s : GState) (ms : List Move),
      (run s ms).game.score = s.game.score + (winAwards s ms).sum) ∧
    (run catState catMoves).game.score = 2 ∧
    (run catState catMoves).level.won = true ∧
    (run catState catMoves).level.attempts_remaining = 2 ∧
    (winAwards catState catMoves).sum = 2 := by
  have main : ∀ (ms : List Move) (s : GState),
      (run s ms).game.score = s.game.score + (winAwards s ms).sum := by
    intro ms
    induction ms with
    | nil => intro s; simp [run, winAwards]
    | cons m ms ih =>
      intro s
      have hrun : run s (m :: ms) = run (step s m) ms := by
        simp [run, List.foldl_cons]
      have haw : winAwards s (m :: ms) =
          (if s.level.complete = false ∧ (step s m).level.complete = true ∧
              (step s m).level.won = true
           then [(step s m).level.attempts_remaining] else []) ++
          winAwards (step s m) ms := rfl
      rw [hrun, ih (step s m), haw, List.sum_append]
      have hs := step_score s m
      by_cases hcond : s.level.complete = false ∧
          (step s m).level.complete = true ∧ (step s m).level.won = true
      · rw [if_pos hcond] at hs ⊢
        simp only [List.sum_cons, List.sum_nil]
        omega
      · rw [if_neg hcond] at hs ⊢
        simp only [List.sum_nil]
        omega
  refine ⟨fun s ms => main ms s, ?_, ?_, ?_, ?_⟩ <;> rfl

/-- **C7 counterexample**: the claim computes `average_score` as rounding
of the exact quotient, but the Python 2 code floor-divides before
`round`.  A user with totals (0, 1) loses a game with score 3: the code
stores average_score 1, while round(3/2) of the exact rational quotient
is 2. -/
theorem C7_rounding_counterexample :
    (step lossState (Move.guess ['z'])).user.average_score = 1 ∧
    spec_average_score
      (step lossState (Move.guess ['z'])).user.total_score
      (step lossState (Move.guess ['z'])).user.total_played = 2 ∧
    (1 : Int) ≠ 2 := by
  refine ⟨rfl, ?_, by norm_num⟩
  have h1 : (step lossState (Move.guess ['z'])).user.total_score = 3 := rfl
  have h2 : (step lossState (Move.guess ['z'])).user.total_played = 2 := rfl
  rw [h1, h2]
  norm_num [spec_average_score, round_eq]

/-- **C7 amended**: at every game-over transition the user's aggregates
are updated by `total_played += 1`, `total_score += score`, and
`average_score = total_score // total_played` (integer floor division, the
Python 2 meaning of `int(round(total_score / total_played))`); at any
request that does not make the game transition to over, the user record is
unchanged. -/
theorem C7_user_aggregates_at_game_over (s : GState) (m : Move) :
    (s.game.game_over = false → (step s m).game.game_over = true →
      (step s m).user =
        { s.user with
          total_played := s.user.total_played + 1
          total_score := s.user.total_score + s.game.score
          average_score := (s.user.total_score + s.game.score).fdiv
            (s.user.total_played + 1) }) ∧
    (s.game.game_over = true ∨ (step s m).game.game_over = false →
      (step s m).user = s.user) := by
  cases m with
  | nextLevel w =>
    have huser : (step s (Move.nextLevel w)).user = s.user := by
      simp only [step]
      unfold next_level new_level
      by_cases hov : s.game.game_over = true
      · rw [if_pos hov]
      · rw [if_neg hov]
        by_cases hcf : s.level.complete = false
        · rw [if_pos hcf]
        · rw [if_neg hcf]
    have hover : (step s (Move.nextLevel w)).game.game_over =
        s.game.game_over := by
      simp only [step]
      unfold next_level new_level
      by_cases hov : s.game.game_over = true
      · rw [if_pos hov]
      · rw [if_neg hov]
        by_cases hcf : s.level.complete = false
        · rw [if_pos hcf]
        · rw [if_neg hcf]
    constructor
    · intro h1 h2
      rw [hover, h1] at h2
      exact Bool.noConfusion h2
    · intro _
      exact huser
  | guess g =>
    simp only [step]
    rcases make_move_snd_cases s g with heq | ⟨heq, _, hov⟩
    · rw [heq]
      constructor
      · intro h1 h2
        rw [h1] at h2
        exact Bool.noConfusion h2
      · intro _
        rfl
    · rw [heq]
      by_cases hc : (update_level s.level g).complete = true
      · by_cases hw : (update_level s.level g).won = true
        · have huser : (update_game s g).user = s.user := by
            simp [update_game, hc, hw]
          have hover2 : (update_game s g).game.game_over =
              s.game.game_over := by
            simp [update_game, hc, hw]
          constructor
          · intro h1 h2
            rw [hover2, h1] at h2
            exact Bool.noConfusion h2
          · intro _
            exact huser
        · have huser : (update_game s g).user =
              { s.user with
                total_played := s.user.total_played + 1
                total_score := s.user.total_score + s.game.score
                average_score := (s.user.total_score + s.game.score).fdiv
                  (s.user.total_played + 1) } := by
            simp [update_game, hc, hw]
          have hover2 : (update_game s g).game.game_over = true := by
            simp [update_game, hc, hw]
          constructor
          · intro _ _
            exact huser
          · intro hcases
            rcases hcases with h1 | h2
            · rw [hov] at h1
              exact Bool.noConfusion h1
            · rw [hover2] at h2
              exact Bool.noConfusion h2
      · have huser : (update_game s g).user = s.user := by
          simp [update_game, hc]
        have hover2 : (update_game s g).game.game_over =
            s.game.game_over := by
          simp [update_game, hc]
        constructor
        · intro h1 h2
          rw [hover2, h1] at h2
          exact Bool.noConfusion h2
        · intro _
          exact huser

/-- Witness for the amended C7: losing the last attempt of `lossState`
flips `game_over` and folds score 3 into the user's totals with the
floor-divided average. -/
theorem C7_user_aggregates_at_game_over_witness :
    lossState.game.game_over = false ∧
    (step lossState (Move.guess ['z'])).game.game_over = true ∧
    (step lossState (Move.guess ['z'])).user =
      { lossState.user with
        total_played := lossState.user.total_played + 1
        total_score := lossState.user.total_score + lossState.game.score
        average_score := (lossState.user.total_score +
          lossState.game.score).fdiv (lossState.user.total_played + 1) } :=
  ⟨rfl, rfl,
    (C7_user_aggregates_at_game_over lossState (Move.guess ['z'])).1 rfl rfl⟩
